import Mathlib

/-!
Verification of the rayon parallel-iteration adapter of hashbrown
(`src/external_trait_impls/rayon/raw.rs`).

The adapter wraps a splittable range iterator over the occupied buckets of a
raw hash table into rayon `UnindexedProducer`s.  The correctness-critical
content is ownership accounting: every element stored in the table must be
yielded to the consumer or destroyed in place exactly once, and the backing
allocation must be released (or retained, for draining) exactly once, no
matter how the scheduler splits the range, saturates, or abandons producers.

The table collaborator (`RawIterRange`, `RawTable` with `clear`,
`clear_no_drop`, `into_alloc`) lives in the repository's `raw` module, which
is not part of the file under verification; those operations are modelled
from the specification's description of them.  The producer code itself
(`ParIterProducer`, `RawIntoParIter`, `RawParDrain`, `ParDrainProducer`) is
translated from the source.
-/

namespace Hashbrown

/-- Modelled from the spec: `RawIterRange`, the table collaborator's range
iterator (not under the verified source file).  A cursor over a contiguous
span of bucket slots in address order; a slot is either occupied (`some x`)
or empty (`none`).  The iterator yields the occupied slots in address
order. -/
structure RawIterRange (T : Type) where
  slots : List (Option T)
deriving Repr, DecidableEq

namespace RawIterRange

/-- The elements held by the occupied slots of the range, in address order. -/
def elements {T : Type} (r : RawIterRange T) : List T :=
  r.slots.filterMap id

/-- Advance past empty slots to the first occupied slot, returning its
element and the remainder of the span. -/
def nextSlot {T : Type} : List (Option T) → Option (T × List (Option T))
  | [] => none
  | none :: rest => nextSlot rest
  | some x :: rest => some (x, rest)

/-- Modelled from the spec: `RawIterRange::next` produces the next occupied
slot's handle in address order, advancing the cursor. -/
def next {T : Type} (r : RawIterRange T) : Option (T × RawIterRange T) :=
  (nextSlot r.slots).map (fun p => (p.1, ⟨p.2⟩))

/-- Modelled from the spec: `RawIterRange::clone` duplicates the cursor
without consuming it or transferring ownership of elements. -/
def clone {T : Type} (r : RawIterRange T) : RawIterRange T := r

/-- Modelled from the spec: `RawIterRange::split` partitions the span into
two disjoint sub-ranges covering the original exactly once each (left then
right in address order); a range too small to split is returned whole with
no right half. -/
def split {T : Type} (r : RawIterRange T) : RawIterRange T × Option (RawIterRange T) :=
  if r.slots.length ≤ 1 then (r, none)
  else
    (⟨r.slots.take (r.slots.length / 2)⟩, some ⟨r.slots.drop (r.slots.length / 2)⟩)

theorem split_partition {T : Type} (r : RawIterRange T) :
    (r.split.1).slots ++ (((r.split.2).map slots).getD []) = r.slots := by
  unfold split
  by_cases h : r.slots.length ≤ 1
  · simp [h]
  · simp [h]

theorem split_empty {T : Type} :
    (RawIterRange.split (⟨[]⟩ : RawIterRange T)).1.elements = [] ∧
      (RawIterRange.split (⟨[]⟩ : RawIterRange T)).2 = none := by
  constructor <;> simp [split, elements]

theorem elements_append {T : Type} (a b : List (Option T)) :
    (RawIterRange.mk (a ++ b)).elements =
      (RawIterRange.mk a).elements ++ (RawIterRange.mk b).elements := by
  simp [elements]

end RawIterRange

/-- Producer which consumes all elements in its range, even if it is dropped
halfway through (`ParDrainProducer` in the source).  Shared by the consuming
(`RawIntoParIter`) and draining (`RawParDrain`) drives. -/
structure ParDrainProducer (T : Type) where
  iter : RawIterRange T
deriving Repr, DecidableEq

namespace ParDrainProducer

/-- `ParDrainProducer::split` from the source: split a clone of the range
iterator, forget `self` (disarming its cleanup destructor), and build one
producer per half. -/
def split {T : Type} (p : ParDrainProducer T) : ParDrainProducer T × Option (ParDrainProducer T) :=
  let lr := p.iter.clone.split
  (⟨lr.1⟩, lr.2.map (fun rt => ⟨rt⟩))

/-- The loop of `ParDrainProducer::fold_with` from the source: take the next
occupied slot, read its element out, pass it to the folder, and stop as soon
as the folder reports it is full.  Returns the final folder state, the list
of elements read out (in address order), and `some rest` when the loop
returned early with slots still unvisited (the producer is then dropped with
that remainder), or `none` when the range was exhausted (the producer is
forgotten: `mem::forget(self)`). -/
def foldLoop {T A : Type} (consume : A → T → A) (full : A → Bool) :
    List (Option T) → A → A × List T × Option (List (Option T))
  | [], folder => (folder, [], none)
  | none :: rest, folder => foldLoop consume full rest folder
  | some x :: rest, folder =>
    let f2 := consume folder x
    if full f2 then (f2, [x], some rest)
    else
      let r := foldLoop consume full rest f2
      (r.1, x :: r.2.1, r.2.2)

/-- `ParDrainProducer::fold_with` from the source, over an abstract folder
given by its accumulator type, consume step and fullness test. -/
def fold_with {T A : Type} (p : ParDrainProducer T) (consume : A → T → A) (full : A → Bool)
    (folder : A) : A × List T × Option (ParDrainProducer T) :=
  let r := foldLoop consume full p.iter.slots folder
  (r.1, r.2.1, r.2.2.map (fun rest => ⟨⟨rest⟩⟩))

/-- `ParDrainProducer::drop` from the source: destroy every remaining
occupied element of the range in place, each exactly once, in address order.
(The source short-circuits when `T` needs no destructor; destroying a
trivially-destructible element is a no-op, so the trace below records the
elements the destructor is responsible for in either case.) -/
def dropRemaining {T : Type} (p : ParDrainProducer T) : List T :=
  p.iter.elements

/-- The elements the folder consumed, followed by the elements the
producer's destructor destroys, always reconstitute exactly the elements of
the range the fold started from. -/
theorem foldLoop_partition {T A : Type} (consume : A → T → A) (full : A → Bool) :
    ∀ (slots : List (Option T)) (folder : A),
      (foldLoop consume full slots folder).2.1 ++
          ((((foldLoop consume full slots folder).2.2).map
            (fun rest => (RawIterRange.mk rest).elements)).getD []) =
        (RawIterRange.mk slots).elements
  | [], folder => by simp [foldLoop, RawIterRange.elements]
  | none :: rest, folder => by
    simpa [foldLoop, RawIterRange.elements] using
      foldLoop_partition consume full rest folder
  | some x :: rest, folder => by
    by_cases h : full (consume folder x)
    · simp [foldLoop, h, RawIterRange.elements]
    · simpa [foldLoop, h, RawIterRange.elements] using
        foldLoop_partition consume full rest (consume folder x)

/-- With a folder that never reports full, the loop exhausts the range:
every occupied element is read out exactly once, and the producer is
forgotten (nothing left for its destructor). -/
theorem foldLoop_never_full {T A : Type} (consume : A → T → A) (full : A → Bool)
    (hfull : ∀ a, full a = false) :
    ∀ (slots : List (Option T)) (folder : A),
      (foldLoop consume full slots folder).2.1 = (RawIterRange.mk slots).elements ∧
        (foldLoop consume full slots folder).2.2 = none
  | [], folder => by simp [foldLoop, RawIterRange.elements]
  | none :: rest, folder => by
    simpa [foldLoop, RawIterRange.elements] using
      foldLoop_never_full consume full hfull rest folder
  | some x :: rest, folder => by
    have ih := foldLoop_never_full consume full hfull rest (consume folder x)
    simp [foldLoop, hfull, RawIterRange.elements, ih.1, ih.2]

end ParDrainProducer

/-- Producer which returns a bucket handle for every element without
consuming the table (`ParIterProducer` in the source). -/
structure ParIterProducer (T : Type) where
  iter : RawIterRange T
deriving Repr, DecidableEq

namespace ParIterProducer

/-- `ParIterProducer::split` from the source: delegate to the range
iterator's split and wrap the halves. -/
def split {T : Type} (p : ParIterProducer T) : ParIterProducer T × Option (ParIterProducer T) :=
  let lr := p.iter.split
  (⟨lr.1⟩, lr.2.map (fun rt => ⟨rt⟩))

/-- `ParIterProducer::fold_with` from the source hands the whole range to
`folder.consume_iter`; the elements reaching the folder are the occupied
slots of the range in address order. -/
def fold_with {T : Type} (p : ParIterProducer T) : List T :=
  p.iter.elements

end ParIterProducer

/-- A split-recursion strategy of the work-stealing scheduler: at each node
it either folds the producer (leaf) or splits it and recurses into the
halves. -/
inductive SplitTree : Type
  | leaf : SplitTree
  | node : SplitTree → SplitTree → SplitTree
deriving Repr, DecidableEq

/-- The ranges of the leaf producers obtained by recursively applying
`ParDrainProducer::split` along a strategy tree, left to right.  When a
split yields no right half, the scheduler continues with the left half
alone. -/
def leavesOf {T : Type} : SplitTree → ParDrainProducer T → List (ParDrainProducer T)
  | .leaf, p => [p]
  | .node tl tr, p =>
    match p.split with
    | (l, none) => leavesOf tl l
    | (l, some rt) => leavesOf tl l ++ leavesOf tr rt

/-- Split leaves partition the original range: concatenating the leaves'
occupied elements in left-to-right order gives back exactly the original
occupied elements in address order. -/
theorem leavesOf_elements {T : Type} :
    ∀ (t : SplitTree) (p : ParDrainProducer T),
      ((leavesOf t p).map (fun q => q.iter.elements)).flatten = p.iter.elements
  | .leaf, p => by simp [leavesOf]
  | .node tl tr, p => by
    have hpart := RawIterRange.split_partition p.iter
    rcases hh : p.iter.split with ⟨l, ro⟩
    rw [hh] at hpart
    cases ro with
    | none =>
      have hl : l.slots = p.iter.slots := by simpa using hpart
      have ih := leavesOf_elements tl ⟨l⟩
      simp only [leavesOf, ParDrainProducer.split, RawIterRange.clone, hh, Option.map_none']
      rw [ih]
      simp [RawIterRange.elements, hl]
    | some rt =>
      have hcat : l.slots ++ rt.slots = p.iter.slots := by simpa using hpart
      have ihl := leavesOf_elements tl ⟨l⟩
      have ihr := leavesOf_elements tr ⟨rt⟩
      simp only [leavesOf, ParDrainProducer.split, RawIterRange.clone, hh, Option.map_some']
      rw [List.map_append, List.flatten_append, ihl, ihr]
      simp only [RawIterRange.elements]
      rw [← List.filterMap_append, hcat]

/-- A folder that merely counts the elements it accepts. -/
def countConsume {T : Type} : Nat → T → Nat := fun n _ => n + 1

/-- A consumer that reports saturation once it has accepted `k` elements. -/
def satFull (k : Nat) : Nat → Bool := fun n => decide (k ≤ n)

/-- Exact behaviour of the fold loop against a consumer saturating at `k`,
starting from an accepted-count of `n₀`: the loop reads out the first
`max 1 (k - n₀)` occupied elements (the fullness test runs only after each
consume, so at least one element is always read when one exists), and the
rest of the range is left for the destructor. -/
theorem foldLoop_saturation {T : Type} (k : Nat) :
    ∀ (slots : List (Option T)) (n₀ : Nat),
      (ParDrainProducer.foldLoop countConsume (satFull k) slots n₀).2.1 =
          (RawIterRange.mk slots).elements.take (max 1 (k - n₀)) ∧
        ((((ParDrainProducer.foldLoop countConsume (satFull k) slots n₀).2.2).map
            (fun rest => (RawIterRange.mk rest).elements)).getD []) =
          (RawIterRange.mk slots).elements.drop (max 1 (k - n₀))
  | [], n₀ => by simp [ParDrainProducer.foldLoop, RawIterRange.elements]
  | none :: rest, n₀ => by
    simpa [ParDrainProducer.foldLoop, RawIterRange.elements] using
      foldLoop_saturation k rest n₀
  | some x :: rest, n₀ => by
    by_cases h : k ≤ n₀ + 1
    · have hm : max 1 (k - n₀) = 1 := by omega
      simp [ParDrainProducer.foldLoop, countConsume, satFull, h, hm,
        RawIterRange.elements]
    · have ih := foldLoop_saturation k rest (n₀ + 1)
      have hm : max 1 (k - n₀) = (k - n₀ - 1) + 1 := by omega
      have hm2 : max 1 (k - (n₀ + 1)) = k - n₀ - 1 := by omega
      rw [hm2] at ih
      simp only [RawIterRange.elements] at ih
      simp [ParDrainProducer.foldLoop, countConsume, satFull, h,
        RawIterRange.elements, hm, ih.1, ih.2]

/-- C1: for every table range and every recursive split strategy applied to
the consuming or draining producer, the elements yielded across all leaf
`fold_with` calls (against any consumer that never reports saturation)
concatenate, leaf by leaf, to exactly the original stored elements in
address order — hence the yielded multiset equals the stored multiset, with
no element yielded twice and none omitted. -/
theorem C1_leaf_folds_yield_original_elements {T A : Type}
    (consume : A → T → A) (full : A → Bool) (a₀ : A)
    (hfull : ∀ a, full a = false) (t : SplitTree) (p : ParDrainProducer T) :
    ((leavesOf t p).map (fun q => (q.fold_with consume full a₀).2.1)).flatten =
      p.iter.elements := by
  have hy : ∀ q : ParDrainProducer T,
      (q.fold_with consume full a₀).2.1 = q.iter.elements := by
    intro q
    have h := ParDrainProducer.foldLoop_never_full consume full hfull q.iter.slots a₀
    simpa [ParDrainProducer.fold_with, RawIterRange.elements] using h.1
  calc ((leavesOf t p).map (fun q => (q.fold_with consume full a₀).2.1)).flatten
      = ((leavesOf t p).map (fun q => q.iter.elements)).flatten := by
        simp only [hy]
    _ = p.iter.elements := leavesOf_elements t p

/-- C1 witness: a concrete three-slot range, split once, folded at both
leaves with a consumer that never saturates, yields exactly the two stored
elements. -/
theorem C1_leaf_folds_yield_original_elements_witness :
    ((leavesOf (SplitTree.node .leaf .leaf)
          (⟨⟨[some 1, none, some 2]⟩⟩ : ParDrainProducer Nat)).map
        (fun q => (q.fold_with (fun (a : Unit) _ => a) (fun _ => false) ()).2.1)).flatten =
      [1, 2] :=
  Trans.trans
    (C1_leaf_folds_yield_original_elements (fun (a : Unit) _ => a) (fun _ => false) ()
      (by intro a; rfl) (SplitTree.node .leaf .leaf) ⟨⟨[some 1, none, some 2]⟩⟩)
    (by decide)

/-- C2 counterexample: the claim quantifies over every saturation point
`k ≤ N`, including `k = 0`.  A consumer saturated from the start (it accepts
zero elements before reporting full) still receives one element from a
one-element table, because `fold_with` checks fullness only after each
consume — so the number yielded is 1, not `k = 0`. -/
theorem C2_counterexample_k_zero :
    (0 : Nat) ≤ (⟨⟨[some 5]⟩⟩ : ParDrainProducer Nat).iter.elements.length ∧
      ((⟨⟨[some 5]⟩⟩ : ParDrainProducer Nat).fold_with countConsume (satFull 0) 0).2.1.length ≠ 0 := by
  constructor
  · decide
  · decide

/-- C2 (amended): for every consumer that reports saturation after accepting
`k` elements with `1 ≤ k ≤ N`, `fold_with` stops the moment the consumer
reports saturation: exactly `k` elements are yielded (the first `k` in
address order), and the producer's destructor destroys exactly the remaining
`N - k` elements, each exactly once — yielded and destroyed together
reconstitute the original elements.  (For `k = 0` the fullness test, which
runs only after each consume, is first seen after one element has already
been yielded.) -/
theorem C2_saturation_yields_k_drops_rest {T : Type} (p : ParDrainProducer T) (k : Nat)
    (h1 : 1 ≤ k) (h2 : k ≤ p.iter.elements.length) :
    ((p.fold_with countConsume (satFull k) 0).2.1).length = k ∧
      (p.fold_with countConsume (satFull k) 0).2.1 = p.iter.elements.take k ∧
      ((((p.fold_with countConsume (satFull k) 0).2.2).map
          ParDrainProducer.dropRemaining).getD []) = p.iter.elements.drop k ∧
      ((((p.fold_with countConsume (satFull k) 0).2.2).map
          ParDrainProducer.dropRemaining).getD []).length = p.iter.elements.length - k ∧
      (p.fold_with countConsume (satFull k) 0).2.1 ++
          ((((p.fold_with countConsume (satFull k) 0).2.2).map
            ParDrainProducer.dropRemaining).getD []) = p.iter.elements := by
  have h := foldLoop_saturation k p.iter.slots 0
  have hmax : max 1 (k - 0) = k := by omega
  rw [hmax] at h
  have he : (RawIterRange.mk p.iter.slots).elements = p.iter.elements := rfl
  rw [he] at h
  have hy : (p.fold_with countConsume (satFull k) 0).2.1 = p.iter.elements.take k := by
    simpa [ParDrainProducer.fold_with] using h.1
  have hd : ((((p.fold_with countConsume (satFull k) 0).2.2).map
      ParDrainProducer.dropRemaining).getD []) = p.iter.elements.drop k := by
    rcases hr : (ParDrainProducer.foldLoop countConsume (satFull k) p.iter.slots 0).2.2 with _ | rest
    · rw [hr] at h
      simp only [Option.map_none', Option.getD_none] at h
      simp [ParDrainProducer.fold_with, hr, h.2]
    · rw [hr] at h
      simp only [Option.map_some', Option.getD_some] at h
      simp [ParDrainProducer.fold_with, hr, ParDrainProducer.dropRemaining,
        RawIterRange.elements]
      simpa [RawIterRange.elements] using h.2
  refine ⟨?_, hy, hd, ?_, ?_⟩
  · rw [hy]
    simp [List.length_take]
    omega
  · rw [hd]
    simp [List.length_drop]
  · rw [hy, hd]
    exact List.take_append_drop k p.iter.elements

/-- C2 witness: a three-element table with saturation point 2 yields the
first two elements and leaves the third for the destructor. -/
theorem C2_saturation_yields_k_drops_rest_witness :
    1 ≤ 2 ∧ 2 ≤ (⟨⟨[some 4, none, some 5, some 6]⟩⟩ : ParDrainProducer Nat).iter.elements.length ∧
      (((((⟨⟨[some 4, none, some 5, some 6]⟩⟩ : ParDrainProducer Nat)).fold_with
          countConsume (satFull 2) 0).2.1).length = 2 ∧
        ((⟨⟨[some 4, none, some 5, some 6]⟩⟩ : ParDrainProducer Nat).fold_with
            countConsume (satFull 2) 0).2.1 =
          (⟨⟨[some 4, none, some 5, some 6]⟩⟩ : ParDrainProducer Nat).iter.elements.take 2 ∧
        (((((⟨⟨[some 4, none, some 5, some 6]⟩⟩ : ParDrainProducer Nat).fold_with
            countConsume (satFull 2) 0).2.2).map ParDrainProducer.dropRemaining).getD []) =
          (⟨⟨[some 4, none, some 5, some 6]⟩⟩ : ParDrainProducer Nat).iter.elements.drop 2 ∧
        (((((⟨⟨[some 4, none, some 5, some 6]⟩⟩ : ParDrainProducer Nat).fold_with
            countConsume (satFull 2) 0).2.2).map ParDrainProducer.dropRemaining).getD []).length =
          (⟨⟨[some 4, none, some 5, some 6]⟩⟩ : ParDrainProducer Nat).iter.elements.length - 2 ∧
        ((⟨⟨[some 4, none, some 5, some 6]⟩⟩ : ParDrainProducer Nat).fold_with
            countConsume (satFull 2) 0).2.1 ++
          (((((⟨⟨[some 4, none, some 5, some 6]⟩⟩ : ParDrainProducer Nat).fold_with
            countConsume (satFull 2) 0).2.2).map ParDrainProducer.dropRemaining).getD []) =
          (⟨⟨[some 4, none, some 5, some 6]⟩⟩ : ParDrainProducer Nat).iter.elements) :=
  ⟨by decide, by decide,
    C2_saturation_yields_k_drops_rest (⟨⟨[some 4, none, some 5, some 6]⟩⟩ : ParDrainProducer Nat)
      2 (by decide) (by decide)⟩

/-- C7: splitting a range iterator produces sub-ranges whose concatenation
(left then right) in address order is exactly the original range — no slot
is in both halves or in neither — and the producer-level splits delegate to
it; splitting an empty range gives a left half yielding nothing and no
right half. -/
theorem C7_split_partitions_range {T : Type} (r : RawIterRange T)
    (p : ParDrainProducer T) (q : ParIterProducer T) :
    (r.split.1).slots ++ (((r.split.2).map RawIterRange.slots).getD []) = r.slots ∧
      (p.split.1).iter.slots ++
          (((p.split.2).map (fun c => c.iter.slots)).getD []) = p.iter.slots ∧
      (q.split.1).iter.slots ++
          (((q.split.2).map (fun c => c.iter.slots)).getD []) = q.iter.slots ∧
      (RawIterRange.split (⟨[]⟩ : RawIterRange T)).1.elements = [] ∧
      (RawIterRange.split (⟨[]⟩ : RawIterRange T)).2 = none := by
  refine ⟨RawIterRange.split_partition r, ?_, ?_,
    RawIterRange.split_empty.1, RawIterRange.split_empty.2⟩
  · have h := RawIterRange.split_partition p.iter
    rcases hh : p.iter.split with ⟨l, ro⟩
    rw [hh] at h
    cases ro with
    | none => simpa [ParDrainProducer.split, RawIterRange.clone, hh] using h
    | some rt => simpa [ParDrainProducer.split, RawIterRange.clone, hh] using h
  · have h := RawIterRange.split_partition q.iter
    rcases hh : q.iter.split with ⟨l, ro⟩
    rw [hh] at h
    cases ro with
    | none => simpa [ParIterProducer.split, hh] using h
    | some rt => simpa [ParIterProducer.split, hh] using h

/-- Observable ownership events of a drive: an element handed to the
consumer, an element destroyed in place, the table's occupancy metadata
reset without touching elements (`clear_no_drop`), a full clear
(`RawParDrain`'s destructor path), or a deallocation of the backing memory
(pointer, layout). -/
inductive Event (T : Type) where
  | yield : T → Event T
  | dropElem : T → Event T
  | clearNoDrop : Event T
  | clearFull : Event T
  | dealloc : Nat → Nat → Event T
deriving Repr, DecidableEq

/-- The elements handed to the consumer, in trace order. -/
def yieldedOf {T : Type} : List (Event T) → List T
  | [] => []
  | .yield x :: es => x :: yieldedOf es
  | .dropElem _ :: es => yieldedOf es
  | .clearNoDrop :: es => yieldedOf es
  | .clearFull :: es => yieldedOf es
  | .dealloc _ _ :: es => yieldedOf es

/-- The elements destroyed in place, in trace order. -/
def droppedOf {T : Type} : List (Event T) → List T
  | [] => []
  | .yield _ :: es => droppedOf es
  | .dropElem x :: es => x :: droppedOf es
  | .clearNoDrop :: es => droppedOf es
  | .clearFull :: es => droppedOf es
  | .dealloc _ _ :: es => droppedOf es

/-- The deallocations performed, in trace order. -/
def deallocsOf {T : Type} : List (Event T) → List (Nat × Nat)
  | [] => []
  | .dealloc p l :: es => (p, l) :: deallocsOf es
  | .yield _ :: es => deallocsOf es
  | .dropElem _ :: es => deallocsOf es
  | .clearNoDrop :: es => deallocsOf es
  | .clearFull :: es => deallocsOf es

/-- Detects the `clear_no_drop` scope-guard event. -/
def isClearNoDrop {T : Type} : Event T → Bool
  | .clearNoDrop => true
  | _ => false

/-- Detects the full-clear (destructor) event. -/
def isClearFull {T : Type} : Event T → Bool
  | .clearFull => true
  | _ => false

theorem yieldedOf_append {T : Type} (a b : List (Event T)) :
    yieldedOf (a ++ b) = yieldedOf a ++ yieldedOf b := by
  induction a with
  | nil => simp [yieldedOf]
  | cons e es ih => cases e <;> simp [yieldedOf, ih]

theorem droppedOf_append {T : Type} (a b : List (Event T)) :
    droppedOf (a ++ b) = droppedOf a ++ droppedOf b := by
  induction a with
  | nil => simp [droppedOf]
  | cons e es ih => cases e <;> simp [droppedOf, ih]

theorem deallocsOf_append {T : Type} (a b : List (Event T)) :
    deallocsOf (a ++ b) = deallocsOf a ++ deallocsOf b := by
  induction a with
  | nil => simp [deallocsOf]
  | cons e es ih => cases e <;> simp [deallocsOf, ih]

theorem yieldedOf_map_yield {T : Type} (xs : List T) :
    yieldedOf (xs.map Event.yield) = xs := by
  induction xs with
  | nil => simp [yieldedOf]
  | cons x xs ih => simp [yieldedOf, ih]

theorem yieldedOf_map_dropElem {T : Type} (xs : List T) :
    yieldedOf (xs.map Event.dropElem) = [] := by
  induction xs with
  | nil => simp [yieldedOf]
  | cons x xs ih => simp [yieldedOf, ih]

theorem droppedOf_map_dropElem {T : Type} (xs : List T) :
    droppedOf (xs.map Event.dropElem) = xs := by
  induction xs with
  | nil => simp [droppedOf]
  | cons x xs ih => simp [droppedOf, ih]

theorem droppedOf_map_yield {T : Type} (xs : List T) :
    droppedOf (xs.map Event.yield) = [] := by
  induction xs with
  | nil => simp [droppedOf]
  | cons x xs ih => simp [droppedOf, ih]

/-- Modelled from the spec: `RawTable`, the table collaborator.  It owns the
bucket storage (occupied or empty slots, in address order) and, when the
table has ever allocated, a backing-allocation descriptor (pointer,
layout). -/
structure RawTable (T : Type) where
  slots : List (Option T)
  alloc : Option (Nat × Nat)
deriving Repr, DecidableEq

namespace RawTable

/-- Modelled from the spec: `RawTable::iter().iter`, the range iterator over
the table's occupied slots. -/
def iter {T : Type} (t : RawTable T) : RawIterRange T := ⟨t.slots⟩

/-- Modelled from the spec: `RawTable::into_alloc`, the consuming extraction
of the backing-allocation descriptor; `none` for a table that never
allocated. -/
def into_alloc {T : Type} (t : RawTable T) : Option (Nat × Nat) := t.alloc

/-- Modelled from the spec: `RawTable::clear_no_drop` marks the table empty
without touching elements (used only when elements have already been
individually consumed); the allocation is retained. -/
def clear_no_drop {T : Type} (t : RawTable T) : RawTable T :=
  { t with slots := t.slots.map (fun _ => none) }

/-- Modelled from the spec: `RawTable::clear` drops every remaining element
(each exactly once, in address order) and marks the table empty; the
allocation is retained.  Returns the event trace next to the new table
state. -/
def clear {T : Type} (t : RawTable T) : List (Event T) × RawTable T :=
  ((t.iter.elements.map Event.dropElem) ++ [Event.clearFull],
    { t with slots := t.slots.map (fun _ => none) })

end RawTable

/-- What the external scheduler and consumer do with one leaf producer:
fold it against a consumer that never saturates, fold it against a consumer
that saturates after accepting `k` elements, or abandon it without folding
(modelling an unwind or a worker that is never resumed). -/
inductive LeafBehavior : Type
  | foldAll : LeafBehavior
  | foldSat : Nat → LeafBehavior
  | abandon : LeafBehavior
deriving Repr, DecidableEq

/-- Events of one leaf: `fold_with` yields elements until exhaustion or
saturation, after which the producer's destructor (`ParDrainProducer::drop`)
destroys whatever its range still holds; an abandoned producer goes straight
to the destructor. -/
def runDrainLeaf {T : Type} (b : LeafBehavior) (p : ParDrainProducer T) : List (Event T) :=
  match b with
  | .abandon => p.dropRemaining.map Event.dropElem
  | .foldAll =>
    let r := p.fold_with countConsume (fun _ => false) 0
    r.2.1.map Event.yield ++
      (((r.2.2).map ParDrainProducer.dropRemaining).getD []).map Event.dropElem
  | .foldSat k =>
    let r := p.fold_with countConsume (satFull k) 0
    r.2.1.map Event.yield ++
      (((r.2.2).map ParDrainProducer.dropRemaining).getD []).map Event.dropElem

/-- Run every leaf producer, matching behaviours positionally (a leaf
without a prescribed behaviour folds to exhaustion). -/
def runLeaves {T : Type} : List LeafBehavior → List (ParDrainProducer T) → List (Event T)
  | _, [] => []
  | bs, p :: ps => runDrainLeaf (bs.headD .foldAll) p ++ runLeaves bs.tail ps

/-- `plumbing::bridge_unindexed` of the external scheduler, modelled: split
the producer along a strategy tree and run each leaf with its behaviour. -/
def bridge_unindexed {T : Type} (p : ParDrainProducer T) (t : SplitTree)
    (bs : List LeafBehavior) : List (Event T) :=
  runLeaves bs (leavesOf t p)

/-- Whatever the folder consumed and whatever the producer's destructor is
then responsible for concatenate to exactly the producer's range. -/
theorem fold_with_partition {T A : Type} (consume : A → T → A) (full : A → Bool)
    (p : ParDrainProducer T) (a : A) :
    (p.fold_with consume full a).2.1 ++
        ((((p.fold_with consume full a).2.2).map ParDrainProducer.dropRemaining).getD []) =
      p.iter.elements := by
  have h := ParDrainProducer.foldLoop_partition consume full p.iter.slots a
  rcases hr : (ParDrainProducer.foldLoop consume full p.iter.slots a).2.2 with _ | rest
  · rw [hr] at h
    simpa [ParDrainProducer.fold_with, hr, RawIterRange.elements] using h
  · rw [hr] at h
    simpa [ParDrainProducer.fold_with, hr, ParDrainProducer.dropRemaining,
      RawIterRange.elements] using h

theorem runDrainLeaf_accounting {T : Type} (b : LeafBehavior) (p : ParDrainProducer T) :
    yieldedOf (runDrainLeaf b p) ++ droppedOf (runDrainLeaf b p) = p.iter.elements := by
  cases b with
  | abandon =>
    simp [runDrainLeaf, yieldedOf_map_dropElem, droppedOf_map_dropElem,
      ParDrainProducer.dropRemaining]
  | foldAll =>
    simpa [runDrainLeaf, yieldedOf_append, droppedOf_append, yieldedOf_map_yield,
      yieldedOf_map_dropElem, droppedOf_map_yield, droppedOf_map_dropElem] using
      fold_with_partition countConsume (fun _ => false) p 0
  | foldSat k =>
    simpa [runDrainLeaf, yieldedOf_append, droppedOf_append, yieldedOf_map_yield,
      yieldedOf_map_dropElem, droppedOf_map_yield, droppedOf_map_dropElem] using
      fold_with_partition countConsume (satFull k) p 0

theorem elemEvents_no_table_events {T : Type} (ys ds : List T) :
    deallocsOf (ys.map Event.yield ++ ds.map Event.dropElem) = [] ∧
      (ys.map Event.yield ++ ds.map Event.dropElem).countP isClearNoDrop = 0 ∧
      (ys.map Event.yield ++ ds.map Event.dropElem).countP isClearFull = 0 := by
  refine ⟨?_, ?_, ?_⟩
  · rw [deallocsOf_append]
    have h1 : deallocsOf (ys.map Event.yield) = [] := by
      induction ys with
      | nil => simp [deallocsOf]
      | cons x xs ih => simp [deallocsOf, ih]
    have h2 : deallocsOf (ds.map Event.dropElem) = [] := by
      induction ds with
      | nil => simp [deallocsOf]
      | cons x xs ih => simp [deallocsOf, ih]
    simp [h1, h2]
  · rw [List.countP_append]
    simp [List.countP_map, Function.comp_def, isClearNoDrop]
  · rw [List.countP_append]
    simp [List.countP_map, Function.comp_def, isClearFull]

theorem runDrainLeaf_no_table_events {T : Type} (b : LeafBehavior) (p : ParDrainProducer T) :
    deallocsOf (runDrainLeaf b p) = [] ∧
      (runDrainLeaf b p).countP isClearNoDrop = 0 ∧
      (runDrainLeaf b p).countP isClearFull = 0 := by
  cases b with
  | abandon =>
    have h := elemEvents_no_table_events ([] : List T) p.dropRemaining
    simpa [runDrainLeaf] using h
  | foldAll => exact elemEvents_no_table_events _ _
  | foldSat k => exact elemEvents_no_table_events _ _

/-- Across all leaves, the multiset of yielded elements plus the multiset of
destroyed elements is exactly the multiset held by the leaves' ranges. -/
theorem runLeaves_accounting {T : Type} (ps : List (ParDrainProducer T)) :
    ∀ (bs : List LeafBehavior),
      (↑(yieldedOf (runLeaves bs ps)) : Multiset T) + ↑(droppedOf (runLeaves bs ps)) =
        ↑((ps.map (fun p => p.iter.elements)).flatten) := by
  induction ps with
  | nil => intro bs; simp [runLeaves, yieldedOf, droppedOf]
  | cons p ps ih =>
    intro bs
    have h1 : (↑(yieldedOf (runDrainLeaf (bs.headD .foldAll) p)) : Multiset T) +
        ↑(droppedOf (runDrainLeaf (bs.headD .foldAll) p)) = ↑p.iter.elements := by
      rw [Multiset.coe_add, runDrainLeaf_accounting]
    have h2 := ih bs.tail
    simp only [runLeaves, yieldedOf_append, droppedOf_append, List.map_cons,
      List.flatten_cons]
    rw [← Multiset.coe_add, ← Multiset.coe_add, ← Multiset.coe_add,
      add_add_add_comm, h1, h2]

/-- The leaf runs of a drive never touch the table or its allocation: they
only yield and destroy elements. -/
theorem runLeaves_no_table_events {T : Type} (ps : List (ParDrainProducer T)) :
    ∀ (bs : List LeafBehavior),
      deallocsOf (runLeaves bs ps) = [] ∧
        (runLeaves bs ps).countP isClearNoDrop = 0 ∧
        (runLeaves bs ps).countP isClearFull = 0 := by
  induction ps with
  | nil => intro bs; simp [runLeaves, deallocsOf]
  | cons p ps ih =>
    intro bs
    have h1 := runDrainLeaf_no_table_events (bs.headD .foldAll) p
    have h2 := ih bs.tail
    simp only [runLeaves, deallocsOf_append, List.countP_append]
    exact ⟨by rw [h1.1, h2.1]; rfl, by rw [h1.2.1, h2.2.1], by rw [h1.2.2, h2.2.2]⟩

/-- The multiset accounting of a whole bridged drive: the yielded and
destroyed elements together are exactly the elements of the producer's
range, however the range was split and however each leaf behaved. -/
theorem bridge_accounting {T : Type} (p : ParDrainProducer T) (t : SplitTree)
    (bs : List LeafBehavior) :
    (↑(yieldedOf (bridge_unindexed p t bs)) : Multiset T) +
        ↑(droppedOf (bridge_unindexed p t bs)) = ↑p.iter.elements := by
  rw [bridge_unindexed, runLeaves_accounting (leavesOf t p) bs, leavesOf_elements]

/-- Parallel iterator which consumes a table and returns elements
(`RawIntoParIter` in the source). -/
structure RawIntoParIter (T : Type) where
  table : RawTable T
deriving Repr, DecidableEq

/-- `RawTable::into_par_iter` from the source. -/
def RawTable.into_par_iter {T : Type} (t : RawTable T) : RawIntoParIter T :=
  ⟨t⟩

/-- `RawIntoParIter::drive_unindexed` from the source: capture the table's
range iterator, arm a scope guard holding `into_alloc`'s descriptor
(deallocating it exactly once on scope exit, normal or unwinding, and doing
nothing when the table never allocated), then bridge a `ParDrainProducer`
over the range.  The trace lists the bridge's element events followed by the
guard's deallocation. -/
def RawIntoParIter.drive_unindexed {T : Type} (it : RawIntoParIter T) (t : SplitTree)
    (bs : List LeafBehavior) : List (Event T) :=
  bridge_unindexed ⟨it.table.iter⟩ t bs ++
    (match it.table.into_alloc with
      | some pl => [Event.dealloc pl.1 pl.2]
      | none => [])

/-- Parallel iterator which consumes elements without freeing the table
storage (`RawParDrain` in the source).  It stores only the table's address
(`NonNull<RawTable<T>>`), no borrow. -/
structure RawParDrain (T : Type) where
  table : Nat
deriving Repr, DecidableEq

/-- `RawTable::par_drain` from the source: build a `RawParDrain` from the
table's address alone (`NonNull::from(self)`), leaving the table itself
untouched; the pair returns the producer next to the table state after
construction. -/
def RawTable.par_drain {T : Type} (addr : Nat) (t : RawTable T) : RawParDrain T × RawTable T :=
  (⟨addr⟩, t)

/-- `RawParDrain::drive_unindexed` from the source, applied to the table the
producer's pointer refers to: arm a scope guard that will `clear_no_drop`
the table on scope exit, obtain the range iterator, `mem::forget(self)` (so
the `RawParDrain` destructor's full `clear` can no longer run), then bridge
a `ParDrainProducer` over the range.  Returns the event trace and the final
table state. -/
def RawParDrain.drive_unindexed {T : Type} (tbl : RawTable T) (t : SplitTree)
    (bs : List LeafBehavior) : List (Event T) × RawTable T :=
  (bridge_unindexed ⟨tbl.iter⟩ t bs ++ [Event.clearNoDrop], tbl.clear_no_drop)

/-- `RawParDrain::drop` from the source, applied to the table the producer's
pointer refers to: if `drive_unindexed` was never called, simply clear the
table. -/
def RawParDrain.drop {T : Type} (tbl : RawTable T) : List (Event T) × RawTable T :=
  tbl.clear

/-- C4: after the consuming drive, the backing memory has been deallocated
exactly once (exactly the descriptor `into_alloc` extracted, when there is
one), and the yielded and in-place-destroyed elements together form exactly
the multiset originally stored — for every split strategy and every leaf
outcome, including early saturation and abandonment (the model of an
unwinding leaf). -/
theorem C4_into_par_iter_drive_accounting {T : Type} (it : RawIntoParIter T)
    (t : SplitTree) (bs : List LeafBehavior) :
    deallocsOf (it.drive_unindexed t bs) =
        (match it.table.into_alloc with
          | some pl => [pl]
          | none => []) ∧
      (↑(yieldedOf (it.drive_unindexed t bs)) : Multiset T) +
          ↑(droppedOf (it.drive_unindexed t bs)) = ↑it.table.iter.elements := by
  have hno := runLeaves_no_table_events (leavesOf t (⟨it.table.iter⟩ : ParDrainProducer T)) bs
  constructor
  · rw [RawIntoParIter.drive_unindexed, deallocsOf_append, bridge_unindexed, hno.1]
    cases it.table.into_alloc with
    | none => rfl
    | some pl => rfl
  · have hacc := bridge_accounting (⟨it.table.iter⟩ : ParDrainProducer T) t bs
    rw [RawIntoParIter.drive_unindexed, yieldedOf_append, droppedOf_append]
    have hy : yieldedOf (match it.table.into_alloc with
        | some pl => [Event.dealloc pl.1 pl.2]
        | none => ([] : List (Event T))) = [] := by
      cases it.table.into_alloc with
      | none => rfl
      | some pl => rfl
    have hd : droppedOf (match it.table.into_alloc with
        | some pl => [Event.dealloc pl.1 pl.2]
        | none => ([] : List (Event T))) = [] := by
      cases it.table.into_alloc with
      | none => rfl
      | some pl => rfl
    rw [hy, hd]
    simpa using hacc

/-- C5: the draining drive installs a scope-exit guard whose
`clear_no_drop` fires exactly once, the disarmed destructor's full `clear`
never also runs, and afterwards the table is empty (every slot unoccupied)
while its allocation descriptor is unchanged, valid for reuse. -/
theorem C5_par_drain_drive_guard {T : Type} (tbl : RawTable T) (t : SplitTree)
    (bs : List LeafBehavior) :
    ((RawParDrain.drive_unindexed tbl t bs).1).countP isClearNoDrop = 1 ∧
      ((RawParDrain.drive_unindexed tbl t bs).1).countP isClearFull = 0 ∧
      ((RawParDrain.drive_unindexed tbl t bs).2).slots = tbl.slots.map (fun _ => none) ∧
      ((RawParDrain.drive_unindexed tbl t bs).2).alloc = tbl.alloc := by
  have hno := runLeaves_no_table_events (leavesOf t (⟨tbl.iter⟩ : ParDrainProducer T)) bs
  refine ⟨?_, ?_, rfl, rfl⟩
  · rw [RawParDrain.drive_unindexed]
    simp only [List.countP_append, bridge_unindexed] at hno ⊢
    rw [hno.2.1]
    rfl
  · rw [RawParDrain.drive_unindexed]
    simp only [List.countP_append, bridge_unindexed] at hno ⊢
    rw [hno.2.2]
    rfl

/-- C6: dropping a `RawParDrain` that was never driven clears the table:
every stored element is destroyed exactly once (the destructor's full clear)
and the table is marked empty, with its allocation retained. -/
theorem C6_undriven_drop_clears_table {T : Type} (tbl : RawTable T) :
    droppedOf (RawParDrain.drop tbl).1 = tbl.iter.elements ∧
      ((RawParDrain.drop tbl).1).countP isClearFull = 1 ∧
      ((RawParDrain.drop tbl).2).slots = tbl.slots.map (fun _ => none) ∧
      ((RawParDrain.drop tbl).2).alloc = tbl.alloc := by
  refine ⟨?_, ?_, rfl, rfl⟩
  · rw [RawParDrain.drop, RawTable.clear, droppedOf_append, droppedOf_map_dropElem]
    simp [droppedOf]
  · rw [RawParDrain.drop, RawTable.clear, List.countP_append]
    simp [List.countP_map, Function.comp_def, isClearFull, List.countP_cons]

/-- C8: when the table has no heap allocation to extract (`into_alloc` is
`none`), the consuming drive performs no deallocation at all, and the trace
is exactly the bridged iteration's trace — the drive still runs normally. -/
theorem C8_no_alloc_no_dealloc {T : Type} (it : RawIntoParIter T) (t : SplitTree)
    (bs : List LeafBehavior) (h : it.table.into_alloc = none) :
    deallocsOf (it.drive_unindexed t bs) = [] ∧
      it.drive_unindexed t bs = bridge_unindexed ⟨it.table.iter⟩ t bs := by
  have hno := runLeaves_no_table_events (leavesOf t (⟨it.table.iter⟩ : ParDrainProducer T)) bs
  constructor
  · rw [RawIntoParIter.drive_unindexed, deallocsOf_append, bridge_unindexed, hno.1, h]
    rfl
  · rw [RawIntoParIter.drive_unindexed, h]
    simp

/-- C8 witness: a never-allocated empty table drives with no deallocation. -/
theorem C8_no_alloc_no_dealloc_witness :
    (⟨[], none⟩ : RawTable Nat).into_alloc = none ∧
      (deallocsOf ((RawTable.into_par_iter ⟨[], none⟩ : RawIntoParIter Nat).drive_unindexed
          SplitTree.leaf []) = [] ∧
        (RawTable.into_par_iter ⟨[], none⟩ : RawIntoParIter Nat).drive_unindexed
            SplitTree.leaf [] =
          bridge_unindexed ⟨(⟨[], none⟩ : RawTable Nat).iter⟩ SplitTree.leaf []) :=
  ⟨rfl, C8_no_alloc_no_dealloc (RawTable.into_par_iter ⟨[], none⟩) SplitTree.leaf [] rfl⟩

/-- C9: `RawTable::par_drain` records only the table's address; the table's
slots and occupancy are completely unchanged by constructing the
`RawParDrain`. -/
theorem C9_par_drain_is_pure_address_capture {T : Type} (addr : Nat) (tbl : RawTable T) :
    (RawTable.par_drain addr tbl).2 = tbl ∧
      (RawTable.par_drain addr tbl).1.table = addr :=
  ⟨rfl, rfl⟩

/-- C10: the clear-without-drop guard is armed before iteration begins and
fires on every exit path: even when the drive is abandoned partway (a leaf
behaves as an unwinding worker), the guard event is in the trace — as the
final scope-exit action — and the table's occupancy metadata is reset to
empty. -/
theorem C10_guard_fires_even_on_partial_drive {T : Type} (tbl : RawTable T)
    (t : SplitTree) (bs : List LeafBehavior) (_h : LeafBehavior.abandon ∈ bs) :
    Event.clearNoDrop ∈ (RawParDrain.drive_unindexed tbl t bs).1 ∧
      ((RawParDrain.drive_unindexed tbl t bs).1).getLast? = some Event.clearNoDrop ∧
      ((RawParDrain.drive_unindexed tbl t bs).2).slots = tbl.slots.map (fun _ => none) := by
  refine ⟨?_, ?_, rfl⟩
  · rw [RawParDrain.drive_unindexed]
    simp
  · rw [RawParDrain.drive_unindexed]
    simp

/-- C10 witness: a two-element table whose only leaf is abandoned (an
unwind partway) still ends with the guard fired and the metadata empty. -/
theorem C10_guard_fires_even_on_partial_drive_witness :
    LeafBehavior.abandon ∈ [LeafBehavior.abandon] ∧
      (Event.clearNoDrop ∈ (RawParDrain.drive_unindexed (⟨[some 1, some 2], some (7, 16)⟩ :
            RawTable Nat) SplitTree.leaf [LeafBehavior.abandon]).1 ∧
        ((RawParDrain.drive_unindexed (⟨[some 1, some 2], some (7, 16)⟩ : RawTable Nat)
            SplitTree.leaf [LeafBehavior.abandon]).1).getLast? = some Event.clearNoDrop ∧
        ((RawParDrain.drive_unindexed (⟨[some 1, some 2], some (7, 16)⟩ : RawTable Nat)
            SplitTree.leaf [LeafBehavior.abandon]).2).slots =
          ([some 1, some 2] : List (Option Nat)).map (fun _ => none)) :=
  ⟨by decide,
    C10_guard_fires_even_on_partial_drive (⟨[some 1, some 2], some (7, 16)⟩ : RawTable Nat)
      SplitTree.leaf [LeafBehavior.abandon] (by decide)⟩

/-- A snapshot of ownership during a drive: the ranges held by the live
producers, the elements already yielded to consumers, and the elements
already destroyed in place. -/
structure OwnState (T : Type) where
  live : List (ParDrainProducer T)
  yielded : List T
  dropped : List T
deriving Repr, DecidableEq

/-- One atomic ownership transfer of the engine, at any live producer:
`split` replaces the producer by the halves of its range (the parent is
`mem::forget`-ten exactly as its children take over — `splitOne` when the
range is too small to divide, `splitTwo` otherwise); `consumeOne` is one
iteration of the fold loop (one element read out and yielded); `finish` is
the fold loop exhausting a range (the producer is forgotten with nothing
left); `dropProd` is the producer's destructor (abandonment or saturation),
destroying every element the producer still holds. -/
inductive OwnStep {T : Type} : OwnState T → OwnState T → Prop
  | splitOne (u v : List (ParDrainProducer T)) (p l : ParDrainProducer T)
      (y d : List T) :
      p.split = (l, none) →
      OwnStep ⟨u ++ p :: v, y, d⟩ ⟨u ++ l :: v, y, d⟩
  | splitTwo (u v : List (ParDrainProducer T)) (p l rt : ParDrainProducer T)
      (y d : List T) :
      p.split = (l, some rt) →
      OwnStep ⟨u ++ p :: v, y, d⟩ ⟨u ++ l :: rt :: v, y, d⟩
  | consumeOne (u v : List (ParDrainProducer T)) (p : ParDrainProducer T)
      (x : T) (rest : RawIterRange T) (y d : List T) :
      p.iter.next = some (x, rest) →
      OwnStep ⟨u ++ p :: v, y, d⟩ ⟨u ++ (⟨rest⟩ : ParDrainProducer T) :: v, y ++ [x], d⟩
  | finish (u v : List (ParDrainProducer T)) (p : ParDrainProducer T) (y d : List T) :
      p.iter.next = none →
      OwnStep ⟨u ++ p :: v, y, d⟩ ⟨u ++ v, y, d⟩
  | dropProd (u v : List (ParDrainProducer T)) (p : ParDrainProducer T) (y d : List T) :
      OwnStep ⟨u ++ p :: v, y, d⟩ ⟨u ++ v, y, d ++ p.dropRemaining⟩

/-- The full ownership account of a state: everything still held by a live
producer, plus everything already yielded, plus everything already
destroyed, as a multiset. -/
def ownAccount {T : Type} (s : OwnState T) : Multiset T :=
  (↑(s.live.flatMap (fun p => p.iter.elements)) : Multiset T) + ↑s.yielded + ↑s.dropped

theorem next_some_elements {T : Type} (r : RawIterRange T) (x : T)
    (rest : RawIterRange T) (h : r.next = some (x, rest)) :
    r.elements = x :: rest.elements := by
  rcases r with ⟨slots⟩
  induction slots with
  | nil => simp [RawIterRange.next, RawIterRange.nextSlot] at h
  | cons s ss ih =>
    cases s with
    | none =>
      apply ih
      simpa [RawIterRange.next, RawIterRange.nextSlot] using h
    | some a =>
      simp [RawIterRange.next, RawIterRange.nextSlot] at h
      simp [RawIterRange.elements, h.1, ← h.2]

theorem next_none_elements {T : Type} (r : RawIterRange T) (h : r.next = none) :
    r.elements = [] := by
  rcases r with ⟨slots⟩
  induction slots with
  | nil => simp [RawIterRange.elements]
  | cons s ss ih =>
    cases s with
    | none =>
      have h2 := ih (by simpa [RawIterRange.next, RawIterRange.nextSlot] using h)
      simpa [RawIterRange.elements] using h2
    | some a => simp [RawIterRange.next, RawIterRange.nextSlot] at h

theorem ownAccount_flatMap_middle {T : Type} (u v : List (ParDrainProducer T))
    (p : ParDrainProducer T) :
    ((u ++ p :: v).flatMap (fun q => q.iter.elements) : List T) =
      u.flatMap (fun q => q.iter.elements) ++ p.iter.elements ++
        v.flatMap (fun q => q.iter.elements) := by
  simp [List.flatMap_append, List.flatMap_cons, List.append_assoc]

/-- Every engine step preserves the ownership account exactly: no element is
duplicated between the producers that exist after the step, and none is
lost. -/
theorem ownStep_preserves_account {T : Type} {s s2 : OwnState T}
    (h : OwnStep s s2) : ownAccount s2 = ownAccount s := by
  cases h with
  | splitOne u v p l y d hsplit =>
    have hpart := RawIterRange.split_partition p.iter
    rcases hh : p.iter.split with ⟨l0, ro⟩
    rw [hh] at hpart
    have hl : l = ⟨l0⟩ ∧ ro = none := by
      have := hsplit
      rw [ParDrainProducer.split] at this
      simp only [RawIterRange.clone, hh] at this
      cases ro with
      | none => exact ⟨by simpa using (congrArg Prod.fst this).symm, rfl⟩
      | some rr => simp at this
    rcases hl with ⟨rfl, rfl⟩
    have hslots : l0.slots = p.iter.slots := by simpa using hpart
    simp only [ownAccount, ownAccount_flatMap_middle]
    have : l0.elements = p.iter.elements := by
      simp [RawIterRange.elements, hslots]
    simp [this]
  | splitTwo u v p l rt y d hsplit =>
    have hpart := RawIterRange.split_partition p.iter
    rcases hh : p.iter.split with ⟨l0, ro⟩
    rw [hh] at hpart
    have hl : l = ⟨l0⟩ ∧ ro = some rt.iter := by
      have := hsplit
      rw [ParDrainProducer.split] at this
      simp only [RawIterRange.clone, hh] at this
      cases ro with
      | none => simp at this
      | some rr =>
        simp only [Option.map_some', Prod.mk.injEq] at this
        refine ⟨this.1.symm, ?_⟩
        have h4 : ({ iter := rr } : ParDrainProducer T) = rt := Option.some.inj this.2
        rw [← h4]
    rcases hl with ⟨rfl, hro⟩
    subst hro
    have hslots : l0.slots ++ rt.iter.slots = p.iter.slots := by simpa using hpart
    have helems : l0.elements ++ rt.iter.elements = p.iter.elements := by
      simp only [RawIterRange.elements]
      rw [← List.filterMap_append, hslots]
    simp only [ownAccount, ownAccount_flatMap_middle, List.flatMap_cons]
    rw [← helems]
    simp only [← Multiset.coe_add, List.append_assoc]
  | consumeOne u v p x rest y d hnext =>
    have helems : p.iter.elements = x :: rest.elements :=
      next_some_elements p.iter x rest hnext
    simp only [ownAccount, ownAccount_flatMap_middle, List.flatMap_cons, helems]
    simp only [← Multiset.coe_add, ← Multiset.cons_coe, ← Multiset.singleton_add,
      Multiset.coe_singleton]
    abel
  | finish u v p y d hnext =>
    have helems : p.iter.elements = [] := next_none_elements p.iter hnext
    simp only [ownAccount, ownAccount_flatMap_middle, List.flatMap_cons,
      List.flatMap_append, helems]
    simp only [← Multiset.coe_add, Multiset.coe_nil, add_zero, List.nil_append]
  | dropProd u v p y d =>
    simp only [ownAccount, ownAccount_flatMap_middle, List.flatMap_cons,
      List.flatMap_append, ParDrainProducer.dropRemaining]
    simp only [← Multiset.coe_add]
    abel

/-- C3: at every instant of any interleaving of splits, fold steps and
producer destructions reachable from a freshly wrapped range, the elements
held by live producers, the elements already yielded and the elements
already destroyed account for the original range exactly once each — each
not-yet-yielded occupied slot is owned by exactly one live producer, never
two, because a `split` removes the parent (`mem::forget`) in the same step
in which its children take over its range. -/
theorem C3_ownership_account_invariant {T : Type} (r : RawIterRange T) (s : OwnState T)
    (h : Relation.ReflTransGen OwnStep ⟨[⟨r⟩], [], []⟩ s) :
    ownAccount s = ↑r.elements := by
  induction h with
  | refl => simp [ownAccount]
  | tail hsteps hstep ih => rw [ownStep_preserves_account hstep, ih]

/-- C3 witness: after splitting the initial producer of a concrete
four-slot range into its two halves, the account still matches the three
stored elements exactly. -/
theorem C3_ownership_account_invariant_witness :
    ownAccount (⟨[⟨⟨[some 2, none]⟩⟩, ⟨⟨[some 3, some 4]⟩⟩], [], []⟩ : OwnState Nat) =
      ↑(⟨[some 2, none, some 3, some 4]⟩ : RawIterRange Nat).elements :=
  C3_ownership_account_invariant (⟨[some 2, none, some 3, some 4]⟩ : RawIterRange Nat)
    ⟨[⟨⟨[some 2, none]⟩⟩, ⟨⟨[some 3, some 4]⟩⟩], [], []⟩
    (Relation.ReflTransGen.single
      (OwnStep.splitTwo [] [] ⟨⟨[some 2, none, some 3, some 4]⟩⟩ ⟨⟨[some 2, none]⟩⟩
        ⟨⟨[some 3, some 4]⟩⟩ [] [] (by decide)))

end Hashbrown

